import Mathlib

/-!
# Verification of the new-post detection core of `goldlure/helm_sh`

Shallow embedding of the reconciliation / state-handling core of the
repository: `check_once.py` (last-date variant, Telegram-message state
store) and `bot.py` (link-set variant, file state store), plus the
last-link variant and URL normalizer that exist only in the spec and in
`tests/test_dedup.py`.

Python strings are modelled as Lean `String` (sequences of Unicode scalar
values); Python string comparison `<`/`>` is code-point lexicographic and
is embedded as `pyStrLt` below.  Python `dict`s whose iteration order
matters are modelled as association lists in insertion order; Python
`set`s are modelled by membership in a list.
-/

namespace HelmSh

/-- Code-point lexicographic order on char lists: the semantics of
Python's `<` on `str`, and also of Lean's `List.lt` on `Char`. -/
def strLtB : List Char → List Char → Bool
  | [], [] => false
  | [], _ :: _ => true
  | _ :: _, [] => false
  | a :: as, b :: bs =>
    if a < b then true
    else if b < a then false
    else strLtB as bs

/-- Python `a < b` on strings. -/
def pyStrLt (a b : String) : Bool := strLtB a.data b.data

/-- One fetched blog post, as the dict built by the parsers in
`check_once.py` / `bot.py`: keys `title`, `link`, `date`, `excerpt`.
The reconciliation logic only ever reads `link` and `date`. -/
structure Post where
  title : String
  link : String
  date : String
  excerpt : String
deriving DecidableEq, Repr

/-! ## Date Normalizer: `check_once.parse_blog_date`

`parse_blog_date` calls `datetime.strptime(date_str.strip(), fmt)` for the
five formats `'%B %d, %Y'`, `'%b %d, %Y'`, `'%Y-%m-%d'`, `'%d %B %Y'`,
`'%d %b %Y'` in order and renders the first success as `%Y-%m-%d`.

CPython's `_strptime` compiles each format to a regex anchored at the
start, requiring the whole string to be consumed:
  * `%d` is `3[01]|[12]\d|0[1-9]|[1-9]` (two digits when they read 01–31,
    else one digit 1–9);
  * `%m` is `1[0-2]|0[1-9]|[1-9]` likewise for 1–12;
  * `%Y` is exactly four digits;
  * `%B`/`%b` are the full/abbreviated English month names, matched
    case-insensitively;
  * a whitespace run in the format matches one or more whitespace
    characters; other characters are literal.
`datetime(year, month, day)` then validates the day against the month
(raising `ValueError`, caught by the format loop) and `year ≥ 1`.
The parsers below implement exactly this on `List Char`. -/

/-- ASCII whitespace as matched by `\s` / stripped by `str.strip()`
(space, tab, newline, carriage return, form feed, vertical tab). -/
def pyIsSpace (c : Char) : Bool :=
  c = ' ' || c = '\t' || c = '\n' || c = '\r' || c = '\x0c' || c = '\x0b'

/-- `str.strip()`: drop leading and trailing whitespace. -/
def pyStrip (s : String) : String :=
  ⟨((s.data.dropWhile pyIsSpace).reverse.dropWhile pyIsSpace).reverse⟩

def digitVal (c : Char) : Nat := c.toNat - '0'.toNat

/-- Match one-or-more whitespace (a blank in a `strptime` format). -/
def pWs1 : List Char → Option (List Char)
  | c :: cs => if pyIsSpace c then some (cs.dropWhile pyIsSpace) else none
  | [] => none

/-- Match a literal character. -/
def pLit (x : Char) : List Char → Option (List Char)
  | c :: cs => if c = x then some cs else none
  | [] => none

/-- `%d`: two digits when they read 01–31, else a single digit 1–9. -/
def pDay : List Char → Option (Nat × List Char)
  | c1 :: c2 :: rest =>
    if c1.isDigit && c2.isDigit then
      let v := digitVal c1 * 10 + digitVal c2
      if 1 ≤ v && v ≤ 31 then some (v, rest)
      else if 1 ≤ digitVal c1 && digitVal c1 ≤ 9 then some (digitVal c1, c2 :: rest)
      else none
    else if c1.isDigit && 1 ≤ digitVal c1 && digitVal c1 ≤ 9 then
      some (digitVal c1, c2 :: rest)
    else none
  | [c1] =>
    if c1.isDigit && 1 ≤ digitVal c1 && digitVal c1 ≤ 9 then some (digitVal c1, [])
    else none
  | [] => none

/-- `%m`: two digits when they read 01–12, else a single digit 1–9. -/
def pMonthNum : List Char → Option (Nat × List Char)
  | c1 :: c2 :: rest =>
    if c1.isDigit && c2.isDigit then
      let v := digitVal c1 * 10 + digitVal c2
      if 1 ≤ v && v ≤ 12 then some (v, rest)
      else if 1 ≤ digitVal c1 && digitVal c1 ≤ 9 then some (digitVal c1, c2 :: rest)
      else none
    else if c1.isDigit && 1 ≤ digitVal c1 && digitVal c1 ≤ 9 then
      some (digitVal c1, c2 :: rest)
    else none
  | [c1] =>
    if c1.isDigit && 1 ≤ digitVal c1 && digitVal c1 ≤ 9 then some (digitVal c1, [])
    else none
  | [] => none

/-- `%Y`: exactly four digits. -/
def pYear4 : List Char → Option (Nat × List Char)
  | c1 :: c2 :: c3 :: c4 :: rest =>
    if c1.isDigit && c2.isDigit && c3.isDigit && c4.isDigit then
      some (digitVal c1 * 1000 + digitVal c2 * 100 + digitVal c3 * 10 + digitVal c4, rest)
    else none
  | _ => none

def monthFullNames : List (List Char × Nat) :=
  [("january".data, 1), ("february".data, 2), ("march".data, 3), ("april".data, 4),
   ("may".data, 5), ("june".data, 6), ("july".data, 7), ("august".data, 8),
   ("september".data, 9), ("october".data, 10), ("november".data, 11), ("december".data, 12)]

def monthAbbrNames : List (List Char × Nat) :=
  [("jan".data, 1), ("feb".data, 2), ("mar".data, 3), ("apr".data, 4),
   ("may".data, 5), ("jun".data, 6), ("jul".data, 7), ("aug".data, 8),
   ("sep".data, 9), ("oct".data, 10), ("nov".data, 11), ("dec".data, 12)]

/-- Case-insensitive match of one name from a month-name table. -/
def pMonthName (names : List (List Char × Nat)) (cs : List Char) : Option (Nat × List Char) :=
  names.findSome? fun (name, num) =>
    if (cs.take name.length).map Char.toLower = name then some (num, cs.drop name.length)
    else none

/-- Gregorian leap year (as in Python's `datetime`). -/
def isLeap (y : Nat) : Bool := y % 4 = 0 && (y % 100 ≠ 0 || y % 400 = 0)

def daysInMonth (y m : Nat) : Nat :=
  if m = 2 then (if isLeap y then 29 else 28)
  else if m = 4 || m = 6 || m = 9 || m = 11 then 30
  else 31

def pad2 (n : Nat) : List Char :=
  if n < 10 then '0' :: (Nat.toDigits 10 n) else Nat.toDigits 10 n

def pad4 (n : Nat) : List Char :=
  if n < 10 then '0' :: '0' :: '0' :: Nat.toDigits 10 n
  else if n < 100 then '0' :: '0' :: Nat.toDigits 10 n
  else if n < 1000 then '0' :: Nat.toDigits 10 n
  else Nat.toDigits 10 n

/-- `strftime('%Y-%m-%d')` of a date. -/
def isoFormat (y m d : Nat) : String :=
  ⟨pad4 y ++ '-' :: pad2 m ++ '-' :: pad2 d⟩

/-- `datetime(y, m, d)` construction check followed by ISO rendering:
`none` models the `ValueError` the format loop catches. -/
def checkAndFormat (y m d : Nat) : Option String :=
  if 1 ≤ y && 1 ≤ m && m ≤ 12 && 1 ≤ d && d ≤ daysInMonth y m then
    some (isoFormat y m d)
  else none

/-- `'%B %d, %Y'` / `'%b %d, %Y'` (month name, day, comma, year). -/
def fmtMonthDayYear (names : List (List Char × Nat)) (cs : List Char) : Option String := do
  let (m, cs) ← pMonthName names cs
  let cs ← pWs1 cs
  let (d, cs) ← pDay cs
  let cs ← pLit ',' cs
  let cs ← pWs1 cs
  let (y, cs) ← pYear4 cs
  if cs = [] then checkAndFormat y m d else none

/-- `'%Y-%m-%d'`. -/
def fmtIso (cs : List Char) : Option String := do
  let (y, cs) ← pYear4 cs
  let cs ← pLit '-' cs
  let (m, cs) ← pMonthNum cs
  let cs ← pLit '-' cs
  let (d, cs) ← pDay cs
  if cs = [] then checkAndFormat y m d else none

/-- `'%d %B %Y'` / `'%d %b %Y'` (day, month name, year). -/
def fmtDayMonthYear (names : List (List Char × Nat)) (cs : List Char) : Option String := do
  let (d, cs) ← pDay cs
  let cs ← pWs1 cs
  let (m, cs) ← pMonthName names cs
  let cs ← pWs1 cs
  let (y, cs) ← pYear4 cs
  if cs = [] then checkAndFormat y m d else none

/-- The ordered format list of `parse_blog_date`. -/
def blogDateFormats : List (List Char → Option String) :=
  [fmtMonthDayYear monthFullNames, fmtMonthDayYear monthAbbrNames,
   fmtIso, fmtDayMonthYear monthFullNames, fmtDayMonthYear monthAbbrNames]

/-- `check_once.parse_blog_date`: sentinel inputs map to `none`; otherwise
the stripped string is tried against the five formats in order, the first
success rendered as `YYYY-MM-DD`. -/
def parse_blog_date (dateStr : String) : Option String :=
  if dateStr = "" || dateStr = "Unknown date" || dateStr = "Recent" then none
  else blogDateFormats.findSome? fun fmt => fmt (pyStrip dateStr).data

/-! ## Last-date reconciler: the per-source loop of `check_once.main`

```python
new_posts = []
latest_date = last_seen_date
for post in posts:
    post_date = parse_blog_date(post['date'])
    if not post_date:
        continue
    if not latest_date or post_date > latest_date:
        latest_date = post_date
    if not last_seen_date or post_date > last_seen_date:
        new_posts.append(post)
```
`None` (no stored date) is modelled as `Option.none`. -/

def maxStep (latest : Option String) (d : String) : Option String :=
  match latest with
  | none => some d
  | some m => if pyStrLt m d then some d else some m

/-- Is `d` strictly newer than the stored date (`not last_seen_date or
post_date > last_seen_date`)? -/
def isNewDate (last0 : Option String) (d : String) : Bool :=
  match last0 with
  | none => true
  | some s => pyStrLt s d

def reconAux (last0 : Option String) :
    List Post → List Post → Option String → List Post × Option String
  | [], newPosts, latest => (newPosts, latest)
  | p :: ps, newPosts, latest =>
    match parse_blog_date p.date with
    | none => reconAux last0 ps newPosts latest
    | some d =>
      reconAux last0 ps (if isNewDate last0 d then newPosts ++ [p] else newPosts)
        (maxStep latest d)

/-- The last-date reconciliation step of `check_once.main` for one source:
returns (`new_posts`, final `latest_date`). -/
def reconcileLastDate (posts : List Post) (last0 : Option String) :
    List Post × Option String :=
  reconAux last0 posts [] last0

/-- The dates of the posts whose date string parses, in fetch order. -/
def parsedDates (posts : List Post) : List String :=
  posts.filterMap fun p => parse_blog_date p.date

/-! ## The multi-source cycle of `check_once.main`

`main` iterates `BLOG_SOURCES` in declaration order; a source whose fetch
returns no posts is skipped (`continue`); otherwise the last-date
reconciler runs against `last_seen_dates.get(name)`, its new posts are
appended to `all_new_posts`, and `updated_dates[name] = latest_date` when
a date was found.  Delivery is `for post in reversed(all_new_posts)`. -/

/-- `dict.get`: first value bound to the key, if any. -/
def dictGet (d : List (String × String)) (k : String) : Option String :=
  (d.find? fun kv => kv.1 = k).map (·.2)

/-- `d[k] = v` on a Python dict: overwrite in place when the key exists,
append otherwise. -/
def dictSet (d : List (String × String)) (k v : String) : List (String × String) :=
  if d.any fun kv => kv.1 = k then
    d.map fun kv => if kv.1 = k then (k, v) else kv
  else d ++ [(k, v)]

def cycleAux (stored : List (String × String)) :
    List (String × List Post) → List Post → List (String × String) →
    List Post × List (String × String)
  | [], allNew, updated => (allNew, updated)
  | (name, posts) :: rest, allNew, updated =>
    if posts = [] then cycleAux stored rest allNew updated
    else
      let r := reconcileLastDate posts (dictGet stored name)
      let updated' := match r.2 with
        | some d => dictSet updated name d
        | none => updated
      cycleAux stored rest (allNew ++ r.1) updated'

/-- One cycle of `check_once.main` over the configured sources (each given
as name and fetched posts, in declaration order), against stored state
`stored`: returns (`all_new_posts`, `updated_dates`). -/
def mainCycle (sources : List (String × List Post)) (stored : List (String × String)) :
    List Post × List (String × String) :=
  cycleAux stored sources [] []

/-- The delivery order of the cycle: `reversed(all_new_posts)`. -/
def deliveredPosts (sources : List (String × List Post))
    (stored : List (String × String)) : List Post :=
  (mainCycle sources stored).1.reverse

/-- The new posts of one source in this cycle (empty when the fetch was
empty, since `main` then skips the source). -/
def sourceNew (stored : List (String × String)) (src : String × List Post) : List Post :=
  if src.2 = [] then [] else (reconcileLastDate src.2 (dictGet stored src.1)).1

/-! ## Link-set reconciler: `bot.check_for_new_posts`

```python
seen_posts = set(state.get('seen_posts', []))
new_posts = []
for post in posts:
    if post['link'] not in seen_posts:
        new_posts.append(post)
        seen_posts.add(post['link'])
```
The Python `set` is modelled by membership in a list (insertion order is
irrelevant: only `in` and `add` are used). -/

def cfnpAux : List Post → List Post → List String → List Post × List String
  | [], newPosts, seen => (newPosts, seen)
  | p :: ps, newPosts, seen =>
    if p.link ∈ seen then cfnpAux ps newPosts seen
    else cfnpAux ps (newPosts ++ [p]) (p.link :: seen)

/-- The reconciliation core of `bot.check_for_new_posts`: returns
(`new_posts`, final `seen_posts`), given the fetch result and the stored
seen-set. -/
def check_for_new_posts (posts : List Post) (seen0 : List String) :
    List Post × List String :=
  cfnpAux posts [] seen0

/-! ## Spec-modelled components

Two parts of the core exist in this repository only through the spec and
`tests/test_dedup.py`: the URL normalizer `normalize_url` that the test
imports from `check_once` (no definition is present under `src/`), and
the last-link reconciler whose scan loop the test inlines. -/

/-- Modelled from the spec: `normalize_url` (imported by
`tests/test_dedup.py` from `check_once` but not defined under `src/`).
"Strips exactly one trailing `/` if present (not recursively)"; pure and
total on every string. -/
def normalize_url (s : String) : String :=
  match s.data.reverse with
  | '/' :: rest => ⟨rest.reverse⟩
  | _ => s

/-- Modelled from the spec: the last-link reconciler (its scan loop is
inlined in `tests/test_dedup.py`): scan the newest-first fetch result
from the front; every post is new until one whose canonical link equals
the stored last-link; with no stored link the whole fetch is new. -/
def lastLinkNew (posts : List Post) (stored : Option String) : List Post :=
  match stored with
  | none => posts
  | some s => posts.takeWhile fun p => p.link ≠ s

/-! ## State messages: `send_state_message` / `get_last_state_from_messages`

`send_state_message` sends `f"🤖 <code>STATE:{json.dumps(d)}</code>"`.
`get_last_state_from_messages` walks the fetched updates newest-first and,
for each text containing `'STATE:'`, applies `re.search(r'STATE:(\{.*\})')`
and `json.loads` on the capture, returning the first success and `{}` when
none (or on any fetch error).

`json.dumps` (defaults: `ensure_ascii=True`, separators `', '`/`': '`) and
`json.loads` are embedded for the value shapes this repository reads:
flat objects with string values for the date state, and objects whose
values are strings or arrays of strings for `bot_state.json`. -/

def lbrace : Char := Char.ofNat 123
def rbrace : Char := Char.ofNat 125

def hexDigitChar (n : Nat) : Char :=
  if n < 10 then Char.ofNat ('0'.toNat + n) else Char.ofNat ('a'.toNat + n - 10)

/-- `\uXXXX` escape (lowercase hex, as CPython emits). -/
def uEsc4 (n : Nat) : List Char :=
  ['\\', 'u', hexDigitChar (n / 4096 % 16), hexDigitChar (n / 256 % 16),
   hexDigitChar (n / 16 % 16), hexDigitChar (n % 16)]

/-- `json.dumps` escaping of one character (`ensure_ascii=True`): ASCII
printables other than `"` and `\` are verbatim, the usual short escapes
for controls, `\uXXXX` otherwise, surrogate pairs beyond the BMP. -/
def escChar (c : Char) : List Char :=
  if c = '"' then ['\\', '"']
  else if c = '\\' then ['\\', '\\']
  else if c = '\x08' then ['\\', 'b']
  else if c = '\x0c' then ['\\', 'f']
  else if c = '\n' then ['\\', 'n']
  else if c = '\r' then ['\\', 'r']
  else if c = '\t' then ['\\', 't']
  else if c.toNat < 0x20 then uEsc4 c.toNat
  else if c.toNat ≤ 0x7e then [c]
  else if c.toNat < 0x10000 then uEsc4 c.toNat
  else uEsc4 (0xd800 + (c.toNat - 0x10000) / 0x400) ++
       uEsc4 (0xdc00 + (c.toNat - 0x10000) % 0x400)

/-- A JSON string literal, quotes included. -/
def encStr (s : String) : List Char := '"' :: (s.data.map escChar).flatten ++ ['"']

def pairChars (k v : String) : List Char := encStr k ++ ':' :: ' ' :: encStr v

def innerChars : List (String × String) → List Char
  | [] => []
  | [kv] => pairChars kv.1 kv.2
  | kv :: kv2 :: rest => pairChars kv.1 kv.2 ++ ',' :: ' ' :: innerChars (kv2 :: rest)

/-- `json.dumps` of a flat string-to-string dict in insertion order. -/
def dumps (d : List (String × String)) : List Char :=
  lbrace :: innerChars d ++ [rbrace]

/-- The text sent by `send_state_message`. -/
def stateMessageChars (d : List (String × String)) : List Char :=
  "🤖 <code>STATE:".data ++ dumps d ++ "</code>".data

def isJsonWs (c : Char) : Bool := c = ' ' || c = '\t' || c = '\n' || c = '\r'

def skipWs (cs : List Char) : List Char := cs.dropWhile isJsonWs

def hexVal (c : Char) : Option Nat :=
  let n := c.toNat
  if 48 ≤ n && n ≤ 57 then some (n - 48)
  else if 97 ≤ n && n ≤ 102 then some (n - 87)
  else if 65 ≤ n && n ≤ 70 then some (n - 55)
  else none

/-- `\uXXXX` digits: four hex chars to a code unit. -/
def hex4 : List Char → Option (Nat × List Char)
  | a :: b :: c :: d :: rest => do
    let va ← hexVal a
    let vb ← hexVal b
    let vc ← hexVal c
    let vd ← hexVal d
    some (va * 4096 + vb * 256 + vc * 16 + vd, rest)
  | _ => none

/-- Decode one escape after the backslash; returns the decoded character
and the rest.  Surrogate pairs are combined as `json.loads` does; a lone
surrogate, which Python would keep as a surrogate code point, has no
`Char` representative and falls to `Char.ofNat`'s default. -/
def decodeEsc : List Char → Option (Char × List Char)
  | e :: cs =>
    if e = '"' then some ('"', cs)
    else if e = '\\' then some ('\\', cs)
    else if e = '/' then some ('/', cs)
    else if e = 'b' then some ('\x08', cs)
    else if e = 'f' then some ('\x0c', cs)
    else if e = 'n' then some ('\n', cs)
    else if e = 'r' then some ('\r', cs)
    else if e = 't' then some ('\t', cs)
    else if e = 'u' then
      match hex4 cs with
      | none => none
      | some (u, rest) =>
        if 0xd800 ≤ u && u ≤ 0xdbff then
          match rest with
          | '\\' :: 'u' :: cs2 =>
            match hex4 cs2 with
            | some (u2, rest2) =>
              if 0xdc00 ≤ u2 && u2 ≤ 0xdfff then
                some (Char.ofNat (0x10000 + (u - 0xd800) * 0x400 + (u2 - 0xdc00)), rest2)
              else some (Char.ofNat u, rest)
            | none => some (Char.ofNat u, rest)
          | _ => some (Char.ofNat u, rest)
        else some (Char.ofNat u, cs)
    else none
  | [] => none

/-- Body of a JSON string literal (after the opening quote), fuelled by
the input length: content characters and the rest after the closing
quote.  Unescaped controls are rejected, as in strict `json.loads`. -/
def pjsAux : Nat → List Char → Option (List Char × List Char)
  | 0, _ => none
  | _ + 1, [] => none
  | fuel + 1, c :: cs =>
    if c = '"' then some ([], cs)
    else if c = '\\' then
      match decodeEsc cs with
      | none => none
      | some (d, rest) => (pjsAux fuel rest).map fun pr => (d :: pr.1, pr.2)
    else if c.toNat < 0x20 then none
    else (pjsAux fuel cs).map fun pr => (c :: pr.1, pr.2)

/-- A JSON string literal, opening quote included. -/
def parseJString : List Char → Option (String × List Char)
  | c :: rest =>
    if c = '"' then (pjsAux (rest.length + 1) rest).map fun pr => (⟨pr.1⟩, pr.2)
    else none
  | [] => none

/-- Members of a non-empty flat object, consuming the closing brace. -/
def pMembers : Nat → List Char → Option (List (String × String) × List Char)
  | 0, _ => none
  | fuel + 1, cs =>
    (parseJString cs).bind fun kr =>
      match skipWs kr.2 with
      | c :: r2 =>
        if c = ':' then
          (parseJString (skipWs r2)).bind fun vr =>
            match skipWs vr.2 with
            | c2 :: r4 =>
              if c2 = ',' then
                (pMembers fuel (skipWs r4)).map fun pr => ((kr.1, vr.1) :: pr.1, pr.2)
              else if c2 = rbrace then some ([(kr.1, vr.1)], r4)
              else none
            | [] => none
        else none
      | [] => none

/-- Insertion of parsed members into a dict, last value wins, first
position kept — `json.loads` object construction. -/
def buildDict (ps : List (String × String)) : List (String × String) :=
  ps.foldl (fun acc kv => dictSet acc kv.1 kv.2) []

/-- `json.loads` on a flat string-to-string object (the only shape
`check_once` ever stores); anything else is a decode failure. -/
def parseStateObj (cs0 : List Char) : Option (List (String × String)) :=
  match skipWs cs0 with
  | c :: r1 =>
    if c = lbrace then
      match skipWs r1 with
      | c2 :: r2 =>
        if c2 = rbrace then (if skipWs r2 = [] then some [] else none)
        else
          (pMembers ((skipWs r1).length + 1) (skipWs r1)).bind fun pr =>
            if skipWs pr.2 = [] then some (buildDict pr.1) else none
      | [] => none
    else none
  | [] => none

/-- One attempt of `re.search(r'STATE:(\{.*\})')` at the current
position: literal `STATE:`, an opening brace, then greedy `.*` (which
cannot cross a newline) backtracking to a closing brace. -/
def tryMatchAt (cs : List Char) : Option (List Char) :=
  if "STATE:".data.isPrefixOf cs then
    match cs.drop 6 with
    | c :: rest =>
      if c = lbrace then
        let pre := rest.takeWhile fun x => x ≠ '\n'
        let cut := pre.reverse.dropWhile fun x => x ≠ rbrace
        if cut = [] then none else some (lbrace :: cut.reverse)
      else none
    | [] => none
  else none

/-- `re.search`: leftmost position where the pattern matches. -/
def searchState : List Char → Option (List Char)
  | [] => none
  | c :: cs =>
    match tryMatchAt (c :: cs) with
    | some cap => some cap
    | none => searchState cs

/-- Python's `sub in text` on strings. -/
def hasSub (pat : List Char) : List Char → Bool
  | [] => pat.isPrefixOf []
  | c :: cs => pat.isPrefixOf (c :: cs) || hasSub pat cs

/-- State extraction from one message text: the `'STATE:' in text` guard,
the regex search, then `json.loads` on the capture; any failure yields
`none` (the Python loop continues with the next message). -/
def extractState (cs : List Char) : Option (List (String × String)) :=
  if hasSub "STATE:".data cs then (searchState cs).bind parseStateObj
  else none

/-- `get_last_state_from_messages` over a message history (oldest first):
scan newest-first, return the first extractable state, else `{}`. -/
def getLastState (history : List (List Char)) : List (String × String) :=
  (history.reverse.findSome? extractState).getD []

/-- The save step of `check_once.main`: a state message is appended to
the history only when `updated_dates` is non-empty. -/
def saveState (history : List (List Char)) (upd : List (String × String)) :
    List (List Char) :=
  if upd = [] then history else history ++ [stateMessageChars upd]

/-! ## File-backed state store: `bot.load_state` -/

/-- A JSON value of the shapes `bot_state.json` holds: a string or an
array of strings. -/
inductive JVal where
  | jstr : String → JVal
  | jarr : List String → JVal
deriving DecidableEq, Repr

/-- Items of a non-empty string array, consuming the closing bracket. -/
def pArrItems : Nat → List Char → Option (List String × List Char)
  | 0, _ => none
  | fuel + 1, cs =>
    (parseJString cs).bind fun sr =>
      match skipWs sr.2 with
      | c :: r2 =>
        if c = ',' then
          (pArrItems fuel (skipWs r2)).map fun pr => (sr.1 :: pr.1, pr.2)
        else if c = ']' then some ([sr.1], r2)
        else none
      | [] => none

/-- A JSON value in the supported fragment. -/
def parseJVal (cs : List Char) : Option (JVal × List Char) :=
  match cs with
  | c :: rest =>
    if c = '"' then (parseJString cs).map fun pr => (JVal.jstr pr.1, pr.2)
    else if c = '[' then
      match skipWs rest with
      | c2 :: r2 =>
        if c2 = ']' then some (JVal.jarr [], r2)
        else (pArrItems ((c2 :: r2).length + 1) (c2 :: r2)).map fun pr =>
          (JVal.jarr pr.1, pr.2)
      | [] => none
    else none
  | [] => none

def dictSetJ (d : List (String × JVal)) (k : String) (v : JVal) : List (String × JVal) :=
  if d.any fun kv => kv.1 = k then
    d.map fun kv => if kv.1 = k then (k, v) else kv
  else d ++ [(k, v)]

/-- Members of a non-empty object with `JVal` values. -/
def pBotMembers : Nat → List Char → Option (List (String × JVal) × List Char)
  | 0, _ => none
  | fuel + 1, cs =>
    (parseJString cs).bind fun kr =>
      match skipWs kr.2 with
      | c :: r2 =>
        if c = ':' then
          (parseJVal (skipWs r2)).bind fun vr =>
            match skipWs vr.2 with
            | c2 :: r4 =>
              if c2 = ',' then
                (pBotMembers fuel (skipWs r4)).map fun pr => ((kr.1, vr.1) :: pr.1, pr.2)
              else if c2 = rbrace then some ([(kr.1, vr.1)], r4)
              else none
            | [] => none
        else none
      | [] => none

/-- `json.load` on the shapes `bot_state.json` holds. -/
def parseBotState (cs0 : List Char) : Option (List (String × JVal)) :=
  match skipWs cs0 with
  | c :: r1 =>
    if c = lbrace then
      match skipWs r1 with
      | c2 :: r2 =>
        if c2 = rbrace then (if skipWs r2 = [] then some [] else none)
        else
          (pBotMembers ((skipWs r1).length + 1) (skipWs r1)).bind fun pr =>
            if skipWs pr.2 = [] then
              some (pr.1.foldl (fun acc kv => dictSetJ acc kv.1 kv.2) [])
            else none
      | [] => none
    else none
  | [] => none

/-- `bot.load_state`: a missing file (`FileNotFoundError`) yields
`{'seen_posts': []}`; undecodable content raises `json.JSONDecodeError`,
which `load_state` does not catch — modelled as `Except.error`. -/
def loadStateBot : Option (List Char) → Except Unit (List (String × JVal))
  | none => Except.ok [("seen_posts", JVal.jarr [])]
  | some content =>
    match parseBotState content with
    | some st => Except.ok st
    | none => Except.error ()

/-! ## Order lemmas for the code-point lexicographic comparison -/

theorem strLtB_irrefl : ∀ l : List Char, strLtB l l = false
  | [] => rfl
  | a :: as => by simp [strLtB, strLtB_irrefl as]

theorem strLtB_trans : ∀ as bs cs : List Char,
    strLtB as bs = true → strLtB bs cs = true → strLtB as cs = true
  | as, bs, [] => by
    intro _ h2
    exfalso
    cases bs <;> simp [strLtB] at h2
  | [], _, _ :: _ => by
    intro _ _
    simp [strLtB]
  | _ :: _, [], _ :: _ => by
    intro h1 _
    simp [strLtB] at h1
  | a :: as, b :: bs, c :: cs => by
    intro h1 h2
    simp only [strLtB] at h1 h2 ⊢
    by_cases hab : a < b
    · by_cases hbc : b < c
      · simp [lt_trans hab hbc]
      · by_cases hcb : c < b
        · simp [hbc, hcb] at h2
        · have hbceq : b = c := le_antisymm (le_of_not_lt hcb) (le_of_not_lt hbc)
          subst hbceq
          simp [hab]
    · by_cases hba : b < a
      · simp [hab, hba] at h1
      · have habeq : a = b := le_antisymm (le_of_not_lt hba) (le_of_not_lt hab)
        subst habeq
        simp only [lt_irrefl, if_false] at h1
        by_cases hac : a < c
        · simp [hac]
        · by_cases hca : c < a
          · simp [hac, hca] at h2
          · simp only [hac, hca, if_false] at h2 ⊢
            exact strLtB_trans as bs cs h1 h2

theorem strLtB_conn : ∀ as bs : List Char,
    strLtB as bs = false → strLtB bs as = false → as = bs
  | [], [] => by intro _ _; rfl
  | [], _ :: _ => by intro h _; simp [strLtB] at h
  | _ :: _, [] => by intro _ h; simp [strLtB] at h
  | a :: as, b :: bs => by
    intro h1 h2
    simp only [strLtB] at h1 h2
    by_cases hab : a < b
    · simp [hab] at h1
    · by_cases hba : b < a
      · simp [hba] at h2
      · have habeq : a = b := le_antisymm (le_of_not_lt hba) (le_of_not_lt hab)
        subst habeq
        simp only [lt_irrefl, if_false] at h1 h2
        exact congrArg (a :: ·) (strLtB_conn as bs h1 h2)

theorem pyStrLt_irrefl (a : String) : pyStrLt a a = false := strLtB_irrefl a.data

theorem pyStrLt_trans {a b c : String} (h1 : pyStrLt a b = true)
    (h2 : pyStrLt b c = true) : pyStrLt a c = true :=
  strLtB_trans a.data b.data c.data h1 h2

theorem pyStrLt_conn {a b : String} (h1 : pyStrLt a b = false)
    (h2 : pyStrLt b a = false) : a = b := by
  cases a with
  | mk da =>
    cases b with
    | mk db => exact congrArg String.mk (strLtB_conn da db h1 h2)

theorem pyStrLt_asymm {a b : String} (h : pyStrLt a b = true) :
    pyStrLt b a = false := by
  by_contra hc
  have hba : pyStrLt b a = true := by
    cases hx : pyStrLt b a
    · exact absurd hx hc
    · rfl
  have := pyStrLt_trans h hba
  rw [pyStrLt_irrefl] at this
  exact Bool.false_ne_true this

/-! ## Lemmas about the last-date reconciler -/

/-- The "new" test of the loop body as a predicate on one post. -/
def newCond (last0 : Option String) (p : Post) : Bool :=
  match parse_blog_date p.date with
  | none => false
  | some d => isNewDate last0 d

theorem reconAux_fst (last0 : Option String) :
    ∀ (ps : List Post) (acc : List Post) (latest : Option String),
      (reconAux last0 ps acc latest).1 = acc ++ ps.filter (newCond last0)
  | [], acc, latest => by simp [reconAux]
  | p :: ps, acc, latest => by
    simp only [reconAux, List.filter]
    cases hp : parse_blog_date p.date with
    | none => simp [newCond, hp, reconAux_fst last0 ps acc latest]
    | some d =>
      simp only [newCond, hp]
      cases hn : isNewDate last0 d with
      | false => simp [hn, reconAux_fst last0 ps acc]
      | true => simp [hn, reconAux_fst last0 ps (acc ++ [p])]

theorem reconAux_snd (last0 : Option String) :
    ∀ (ps : List Post) (acc : List Post) (latest : Option String),
      (reconAux last0 ps acc latest).2 = (parsedDates ps).foldl maxStep latest
  | [], acc, latest => by simp [reconAux, parsedDates]
  | p :: ps, acc, latest => by
    simp only [reconAux, parsedDates, List.filterMap]
    cases hp : parse_blog_date p.date with
    | none => simpa [parsedDates] using reconAux_snd last0 ps acc latest
    | some d => simpa [parsedDates] using reconAux_snd last0 ps _ (maxStep latest d)

theorem foldl_maxStep_some : ∀ (ds : List String) (m : String),
    ∃ r, ds.foldl maxStep (some m) = some r
  | [], m => ⟨m, rfl⟩
  | d :: ds, m => by
    simp only [List.foldl, maxStep]
    by_cases h : pyStrLt m d = true
    · simp only [h, if_true]
      exact foldl_maxStep_some ds d
    · simp only [h, if_false]
      exact foldl_maxStep_some ds m

/-- The fold of `maxStep` computes a greatest element of the stored date
and the dates seen. -/
theorem foldl_maxStep_greatest : ∀ (ds : List String) (last : Option String) (m : String),
    ds.foldl maxStep last = some m →
      (last = some m ∨ m ∈ ds) ∧
      (∀ s, last = some s → pyStrLt m s = false) ∧
      (∀ d ∈ ds, pyStrLt m d = false)
  | [], last, m => by
    intro h
    simp only [List.foldl] at h
    refine ⟨Or.inl h, fun s hs => ?_, fun d hd => absurd hd (List.not_mem_nil d)⟩
    rw [hs] at h
    cases h
    exact pyStrLt_irrefl m
  | d :: ds, last, m => by
    intro h
    simp only [List.foldl] at h
    have ih := foldl_maxStep_greatest ds (maxStep last d) m h
    obtain ⟨hmem, hlast, hall⟩ := ih
    have hd_le : pyStrLt m d = false := by
      cases last with
      | none => exact hlast d rfl
      | some s0 =>
        simp only [maxStep] at hmem hlast
        by_cases hlt : pyStrLt s0 d = true
        · simp only [hlt, if_true] at hlast
          exact hlast d rfl
        · simp only [hlt, if_false] at hlast
          have hms0 : pyStrLt m s0 = false := hlast s0 rfl
          cases hmd : pyStrLt m d with
          | false => rfl
          | true =>
            exfalso
            by_cases hs0m : s0 = m
            · subst hs0m
              rw [hmd] at hlt
              exact hlt rfl
            · have hs0lt : pyStrLt s0 m = true := by
                cases hx : pyStrLt s0 m
                · exact absurd (pyStrLt_conn hx hms0) hs0m
                · rfl
              have := pyStrLt_trans hs0lt hmd
              rw [this] at hlt
              exact hlt rfl
    refine ⟨?_, ?_, ?_⟩
    · cases last with
      | none =>
        simp only [maxStep] at hmem
        rcases hmem with h1 | h2
        · exact Or.inr (by simp [Option.some.injEq] at h1; simp [h1])
        · exact Or.inr (List.mem_cons_of_mem d h2)
      | some s0 =>
        simp only [maxStep] at hmem
        by_cases hlt : pyStrLt s0 d = true
        · simp only [hlt, if_true] at hmem
          rcases hmem with h1 | h2
          · exact Or.inr (by simp [Option.some.injEq] at h1; simp [h1])
          · exact Or.inr (List.mem_cons_of_mem d h2)
        · simp only [hlt, if_false] at hmem
          rcases hmem with h1 | h2
          · exact Or.inl h1
          · exact Or.inr (List.mem_cons_of_mem d h2)
    · intro s hs
      subst hs
      cases hx : pyStrLt m s with
      | false => rfl
      | true =>
        exfalso
        simp only [maxStep] at hlast
        by_cases hlt : pyStrLt s d = true
        · simp only [hlt, if_true] at hlast
          have hmd : pyStrLt m d = false := hlast d rfl
          have hmd2 := pyStrLt_trans hx hlt
          exact absurd (hmd2.symm.trans hmd) (by decide)
        · simp only [hlt, if_false] at hlast
          have := hlast s rfl
          rw [hx] at this
          exact Bool.false_ne_true this.symm
    · intro x hx
      rcases List.mem_cons.mp hx with rfl | hxs
      · exact hd_le
      · exact hall x hxs

theorem newCond_iff (last0 : Option String) (p : Post) :
    newCond last0 p = true ↔
      ∃ d, parse_blog_date p.date = some d ∧
        (last0 = none ∨ ∃ s, last0 = some s ∧ pyStrLt s d = true) := by
  unfold newCond
  cases hp : parse_blog_date p.date with
  | none => simp
  | some d =>
    simp only [Option.some.injEq]
    cases last0 with
    | none => simp [isNewDate]
    | some s =>
      simp only [isNewDate]
      constructor
      · intro h
        exact ⟨d, rfl, Or.inr ⟨s, rfl, h⟩⟩
      · rintro ⟨d2, rfl, h | ⟨s2, hs2, hlt⟩⟩
        · cases h
        · cases hs2
          exact hlt

theorem reconcile_new_eq_filter (posts : List Post) (last0 : Option String) :
    (reconcileLastDate posts last0).1 = posts.filter (newCond last0) := by
  simpa using reconAux_fst last0 posts [] last0

/-- The fetch result of the spec's end-to-end scenario, newest first. -/
def scenarioPostA : Post := ⟨"Post A", "/a", "Nov 20, 2025", ""⟩

def scenarioPostB : Post := ⟨"Post B", "/b", "Nov 18, 2025", ""⟩

/-- C1: in the last-date reconciliation of `check_once.main`, a fetched
post is in `new_posts` iff its date string parses and either no last-date
is stored for the source or the parsed date is strictly greater than the
stored one; posts with equal dates or unparseable dates are not new, and
with no stored state every parseable post is new.  The spec's end-to-end
scenario (`Nov 20` / `Nov 18` against stored `2025-11-18`) yields exactly
the `Nov 20` post. -/
theorem last_date_new_iff_parseable_and_greater :
    (∀ (posts : List Post) (last0 : Option String) (p : Post),
        p ∈ (reconcileLastDate posts last0).1 ↔
          p ∈ posts ∧ ∃ d, parse_blog_date p.date = some d ∧
            (last0 = none ∨ ∃ s, last0 = some s ∧ pyStrLt s d = true)) ∧
    (reconcileLastDate [scenarioPostA, scenarioPostB] (some "2025-11-18")).1 =
      [scenarioPostA] := by
  constructor
  · intro posts last0 p
    rw [reconcile_new_eq_filter, List.mem_filter, newCond_iff]
  · decide

/-- A parseable post strictly older than the stored last-date. -/
def earlyDatedPost : Post := ⟨"Old news", "/c", "Nov 10, 2025", ""⟩

/-- C2 counterexample: with stored last-date `2025-11-18` and a single
fetched post whose date parses to `2025-11-10`, the maximum date among
the parseable posts of the cycle is `2025-11-10`, yet `check_once.main`
stores `2025-11-18` (it initializes `latest_date = last_seen_date`), so
the updated state is not the maximum over the posts alone. -/
theorem last_date_update_keeps_newer_stored_date :
    parsedDates [earlyDatedPost] = ["2025-11-10"] ∧
    (reconcileLastDate [earlyDatedPost] (some "2025-11-18")).2 = some "2025-11-18" ∧
    (some "2025-11-18" : Option String) ≠ some "2025-11-10" := by
  exact ⟨by decide, by decide, by decide⟩

/-- C2 as amended: the updated last-date is the fold of `maxStep` over
the parseable dates starting from the stored date — i.e. the maximum of
the stored last-date and all parseable dates of the cycle (so posts
whose date fails to parse never change it), and whenever at least one
date parses the result is a greatest element of that collection. -/
theorem last_date_update_max_of_stored_and_parseable :
    ∀ (posts : List Post) (last0 : Option String),
      (reconcileLastDate posts last0).2 = (parsedDates posts).foldl maxStep last0 ∧
      (parsedDates posts ≠ [] →
        ∃ m, (reconcileLastDate posts last0).2 = some m ∧
          (last0 = some m ∨ m ∈ parsedDates posts) ∧
          (∀ s, last0 = some s → pyStrLt m s = false) ∧
          (∀ d ∈ parsedDates posts, pyStrLt m d = false)) := by
  intro posts last0
  have heq : (reconcileLastDate posts last0).2 = (parsedDates posts).foldl maxStep last0 :=
    reconAux_snd last0 posts [] last0
  refine ⟨heq, fun hne => ?_⟩
  obtain ⟨m, hm⟩ : ∃ m, (parsedDates posts).foldl maxStep last0 = some m := by
    cases hds : parsedDates posts with
    | nil => exact absurd hds hne
    | cons d ds =>
      have hstep : ∃ x, maxStep last0 d = some x := by
        cases last0 with
        | none => exact ⟨d, rfl⟩
        | some s0 =>
          by_cases h : pyStrLt s0 d = true
          · exact ⟨d, by simp [maxStep, h]⟩
          · exact ⟨s0, by simp [maxStep, h]⟩
      obtain ⟨x, hx⟩ := hstep
      simp only [List.foldl, hx]
      exact foldl_maxStep_some ds x
  rw [heq, hm]
  obtain ⟨hmem, hlast, hall⟩ := foldl_maxStep_greatest (parsedDates posts) last0 m hm
  exact ⟨m, rfl, hmem, hlast, hall⟩

/-- Witness for the amended C2 at the spec's scenario: the cycle with
stored date `2025-11-18` and posts dated `Nov 20` / `Nov 18` updates the
state to a greatest parsed date. -/
theorem last_date_update_max_witness :
    ∃ m, (reconcileLastDate [scenarioPostA, scenarioPostB] (some "2025-11-18")).2 = some m ∧
      ((some "2025-11-18" : Option String) = some m ∨
        m ∈ parsedDates [scenarioPostA, scenarioPostB]) ∧
      (∀ s, (some "2025-11-18" : Option String) = some s → pyStrLt m s = false) ∧
      (∀ d ∈ parsedDates [scenarioPostA, scenarioPostB], pyStrLt m d = false) :=
  (last_date_update_max_of_stored_and_parseable [scenarioPostA, scenarioPostB]
    (some "2025-11-18")).2 (by decide)

/-! ## Lemmas about the link-set reconciler -/

theorem cfnpAux_snd_mem : ∀ (posts : List Post) (acc : List Post) (seen : List String)
    (l : String), l ∈ (cfnpAux posts acc seen).2 ↔
      l ∈ seen ∨ ∃ p, p ∈ posts ∧ p.link = l
  | [], acc, seen, l => by simp [cfnpAux]
  | p :: ps, acc, seen, l => by
    simp only [cfnpAux]
    by_cases h : p.link ∈ seen
    · rw [if_pos h, cfnpAux_snd_mem ps acc seen l]
      constructor
      · rintro (hl | ⟨q, hq, rfl⟩)
        · exact Or.inl hl
        · exact Or.inr ⟨q, List.mem_cons_of_mem p hq, rfl⟩
      · rintro (hl | ⟨q, hq, rfl⟩)
        · exact Or.inl hl
        · rcases List.mem_cons.mp hq with rfl | hq2
          · exact Or.inl h
          · exact Or.inr ⟨q, hq2, rfl⟩
    · rw [if_neg h, cfnpAux_snd_mem ps (acc ++ [p]) (p.link :: seen) l]
      constructor
      · rintro (hl | ⟨q, hq, rfl⟩)
        · rcases List.mem_cons.mp hl with rfl | h2
          · exact Or.inr ⟨p, List.mem_cons_self p ps, rfl⟩
          · exact Or.inl h2
        · exact Or.inr ⟨q, List.mem_cons_of_mem p hq, rfl⟩
      · rintro (hl | ⟨q, hq, rfl⟩)
        · exact Or.inl (List.mem_cons_of_mem _ hl)
        · rcases List.mem_cons.mp hq with rfl | hq2
          · exact Or.inl (List.mem_cons_self q.link seen)
          · exact Or.inr ⟨q, hq2, rfl⟩

theorem cfnpAux_fst_all_seen : ∀ (posts : List Post) (acc : List Post) (seen : List String),
    (∀ p ∈ posts, p.link ∈ seen) → (cfnpAux posts acc seen).1 = acc
  | [], acc, seen => fun _ => rfl
  | p :: ps, acc, seen => by
    intro h
    simp only [cfnpAux, if_pos (h p (List.mem_cons_self p ps))]
    exact cfnpAux_fst_all_seen ps acc seen fun q hq => h q (List.mem_cons_of_mem p hq)

theorem cfnpAux_fst_mem : ∀ (posts : List Post) (acc : List Post) (seen : List String),
    (posts.map Post.link).Nodup → ∀ q : Post,
      q ∈ (cfnpAux posts acc seen).1 ↔ q ∈ acc ∨ (q ∈ posts ∧ q.link ∉ seen)
  | [], acc, seen => by simp [cfnpAux]
  | p :: ps, acc, seen => by
    intro hnd q
    have hnd2 : (ps.map Post.link).Nodup := (List.nodup_cons.mp (by simpa using hnd)).2
    have hpn : p.link ∉ ps.map Post.link := (List.nodup_cons.mp (by simpa using hnd)).1
    simp only [cfnpAux]
    by_cases h : p.link ∈ seen
    · rw [if_pos h, cfnpAux_fst_mem ps acc seen hnd2 q]
      constructor
      · rintro (ha | ⟨hq, hs⟩)
        · exact Or.inl ha
        · exact Or.inr ⟨List.mem_cons_of_mem p hq, hs⟩
      · rintro (ha | ⟨hq, hs⟩)
        · exact Or.inl ha
        · rcases List.mem_cons.mp hq with rfl | hq2
          · exact absurd h hs
          · exact Or.inr ⟨hq2, hs⟩
    · rw [if_neg h, cfnpAux_fst_mem ps (acc ++ [p]) (p.link :: seen) hnd2 q]
      constructor
      · rintro (ha | ⟨hq, hs⟩)
        · rcases List.mem_append.mp ha with h2 | h2
          · exact Or.inl h2
          · rcases List.mem_singleton.mp h2 with rfl
            exact Or.inr ⟨List.mem_cons_self q ps, h⟩
        · refine Or.inr ⟨List.mem_cons_of_mem p hq, fun hc => hs ?_⟩
          exact List.mem_cons_of_mem _ hc
      · rintro (ha | ⟨hq, hs⟩)
        · exact Or.inl (List.mem_append.mpr (Or.inl ha))
        · rcases List.mem_cons.mp hq with rfl | hq2
          · exact Or.inl (List.mem_append.mpr (Or.inr (List.mem_singleton.mpr rfl)))
          · refine Or.inr ⟨hq2, fun hc => ?_⟩
            rcases List.mem_cons.mp hc with he | hin
            · exact hpn (he ▸ List.mem_map_of_mem Post.link hq2)
            · exact hs hin

/-- Two distinct fetched posts sharing one canonical link. -/
def dupLinkPostA : Post := ⟨"First", "https://example.com/x", "", ""⟩

def dupLinkPostB : Post := ⟨"Second", "https://example.com/x", "", ""⟩

/-- C3 counterexample: with empty stored set, a fetch result holding two
distinct posts with the same link emits only the first: the second post's
link is absent from the stored set, yet the post is not in the new-posts
output (the loop adds the link to the seen-set as it scans), refuting the
unrestricted membership equivalence. -/
theorem link_set_duplicate_link_not_emitted :
    (check_for_new_posts [dupLinkPostA, dupLinkPostB] []).1 = [dupLinkPostA] ∧
    dupLinkPostB ∈ [dupLinkPostA, dupLinkPostB] ∧
    dupLinkPostB.link ∉ ([] : List String) ∧
    dupLinkPostB ∉ (check_for_new_posts [dupLinkPostA, dupLinkPostB] []).1 :=
  ⟨by decide, by decide, by decide, by decide⟩

/-- C3 as amended: when the fetched posts' links are pairwise distinct
(the only case the counterexample excludes), a post is in the new-posts
output iff its link is absent from the stored set; unconditionally, the
updated seen-set is the union of the stored set and all links observed
this cycle, and re-running the reconciliation on the same fetch result
against the updated state emits nothing. -/
theorem link_set_reconciliation :
    ∀ (posts : List Post) (seen0 : List String),
      ((posts.map Post.link).Nodup →
        ∀ q : Post, q ∈ (check_for_new_posts posts seen0).1 ↔
          q ∈ posts ∧ q.link ∉ seen0) ∧
      (∀ l, l ∈ (check_for_new_posts posts seen0).2 ↔
        l ∈ seen0 ∨ ∃ p, p ∈ posts ∧ p.link = l) ∧
      (check_for_new_posts posts (check_for_new_posts posts seen0).2).1 = [] := by
  intro posts seen0
  refine ⟨fun hnd q => ?_, fun l => cfnpAux_snd_mem posts [] seen0 l, ?_⟩
  · rw [check_for_new_posts, cfnpAux_fst_mem posts [] seen0 hnd q]
    simp
  · apply cfnpAux_fst_all_seen
    intro p hp
    exact (cfnpAux_snd_mem posts [] seen0 p.link).mpr (Or.inr ⟨p, hp, rfl⟩)

/-- Witness for the amended C3 at a concrete two-post fetch with distinct
links and empty stored state. -/
theorem link_set_reconciliation_witness :
    scenarioPostB ∈
      (check_for_new_posts [scenarioPostA, scenarioPostB] ["/c"]).1 ↔
      scenarioPostB ∈ [scenarioPostA, scenarioPostB] ∧
        scenarioPostB.link ∉ ["/c"] :=
  (link_set_reconciliation [scenarioPostA, scenarioPostB] ["/c"]).1
    (by decide) scenarioPostB

/-! ## Theorems about the last-link reconciler (spec-modelled) -/

theorem takeWhile_links_all_ne : ∀ (posts : List Post) (s : String),
    (∀ p ∈ posts, p.link ≠ s) →
      (posts.takeWhile fun p => p.link ≠ s) = posts
  | [], _ => fun _ => rfl
  | p :: ps, s => by
    intro h
    have hp : p.link ≠ s := h p (List.mem_cons_self p ps)
    simp only [List.takeWhile, decide_eq_true hp]
    exact congrArg (p :: ·)
      (takeWhile_links_all_ne ps s fun q hq => h q (List.mem_cons_of_mem p hq))

theorem takeWhile_links_front : ∀ (pre : List Post) (p : Post) (post : List Post)
    (s : String), (∀ q ∈ pre, q.link ≠ s) → p.link = s →
      ((pre ++ p :: post).takeWhile fun q => q.link ≠ s) = pre
  | [], p, post, s => by
    intro _ hp
    simp [List.takeWhile, hp]
  | q :: pre, p, post, s => by
    intro h hp
    have hq : q.link ≠ s := h q (List.mem_cons_self q pre)
    simp only [List.cons_append, List.takeWhile, decide_eq_true hq]
    exact congrArg (q :: ·)
      (takeWhile_links_front pre p post s (fun r hr => h r (List.mem_cons_of_mem q hr)) hp)

/-- The two posts of `tests/test_dedup.py` (their links are already in
normalized form, as the test builds them via `normalize_url`). -/
def testPostNew : Post := ⟨"new", "https://example.com/new", "", ""⟩

def testPostOld : Post := ⟨"old", "https://example.com/old", "", ""⟩

/-- C4: last-link reconciliation: with no stored link, or a stored link
absent from the fetch result, every fetched post is new; the new-posts
output is exactly the prefix of the newest-first fetch result preceding
the first post whose link equals the stored one — in particular, when the
newest post's link equals the stored link the output is empty. -/
theorem last_link_new_posts_scan :
    (∀ posts : List Post, lastLinkNew posts none = posts) ∧
    (∀ (posts : List Post) (s : String), (∀ p ∈ posts, p.link ≠ s) →
        lastLinkNew posts (some s) = posts) ∧
    (∀ (p : Post) (ps : List Post) (s : String), p.link = s →
        lastLinkNew (p :: ps) (some s) = []) ∧
    (∀ (pre : List Post) (p : Post) (post : List Post) (s : String),
        (∀ q ∈ pre, q.link ≠ s) → p.link = s →
        lastLinkNew (pre ++ p :: post) (some s) = pre) := by
  refine ⟨fun _ => rfl, fun posts s h => takeWhile_links_all_ne posts s h,
    fun p ps s hp => ?_, fun pre p post s h hp => takeWhile_links_front pre p post s h hp⟩
  exact takeWhile_links_front [] p ps s (by intro q hq; cases hq) hp

/-- Witness for C4 at the scenario of
`test_dedup.test_newest_seen_means_no_new_posts`: the stored link equals
the newest fetched post's link, so nothing is new. -/
theorem last_link_new_posts_scan_witness :
    lastLinkNew [testPostNew, testPostOld] (some "https://example.com/new") = [] :=
  last_link_new_posts_scan.2.2.1 testPostNew [testPostOld]
    "https://example.com/new" (by decide)

/-! ## Theorems about the URL normalizer (spec-modelled) -/

/-- Does the string end with `/`? -/
def lastIsSlash (s : String) : Bool :=
  match s.data.reverse with
  | '/' :: _ => true
  | _ => false

/-- Does the string end with two (or more) slashes? -/
def endsTwoSlash (s : String) : Bool :=
  match s.data.reverse with
  | '/' :: '/' :: _ => true
  | _ => false

theorem normalize_url_concat_slash (s : String) : normalize_url (s ++ "/") = s := by
  cases s with
  | mk d =>
    show normalize_url ⟨d ++ ['/']⟩ = ⟨d⟩
    simp [normalize_url, List.reverse_append]

theorem normalize_url_of_not_slash (s : String) (h : lastIsSlash s = false) :
    normalize_url s = s := by
  unfold normalize_url
  unfold lastIsSlash at h
  split
  · rename_i heq
    rw [heq] at h
    simp at h
  · rfl

/-- C6 counterexample: `normalize` strips exactly one trailing slash, so
it is not idempotent on a URL ending in two slashes. -/
theorem normalize_url_not_idempotent :
    normalize_url (normalize_url "https://helm.sh/blog//") ≠
      normalize_url "https://helm.sh/blog//" := by decide

/-- C6 as amended: `normalize` is a total pure function; appending one
slash and normalizing recovers the original string; a string not ending
in `/` is fixed; idempotence and the trailing-slash collapse hold for
every string that does not end in two slashes (the case the
counterexample excludes). -/
theorem normalize_url_strip_one_slash :
    (∀ s : String, normalize_url (s ++ "/") = s) ∧
    (∀ s : String, lastIsSlash s = false → normalize_url s = s) ∧
    (∀ s : String, endsTwoSlash s = false →
        normalize_url (normalize_url s) = normalize_url s) ∧
    (∀ s : String, lastIsSlash s = false →
        normalize_url (s ++ "/") = normalize_url s) := by
  refine ⟨normalize_url_concat_slash, normalize_url_of_not_slash, ?_, ?_⟩
  · intro s h2
    cases hrev : s.data.reverse with
    | nil =>
      have hs : lastIsSlash s = false := by
        unfold lastIsSlash
        rw [hrev]
      rw [normalize_url_of_not_slash s hs, normalize_url_of_not_slash s hs]
    | cons c rest =>
      by_cases hc : c = '/'
      · subst hc
        have hnorm : normalize_url s = ⟨rest.reverse⟩ := by
          unfold normalize_url
          rw [hrev]
          rfl
        rw [hnorm]
        apply normalize_url_of_not_slash
        unfold lastIsSlash
        simp only [List.reverse_reverse]
        cases rest with
        | nil => rfl
        | cons c2 rest2 =>
          unfold endsTwoSlash at h2
          rw [hrev] at h2
          by_cases hc2 : c2 = '/'
          · subst hc2
            simp at h2
          · split
            · rename_i heq
              injection heq with h1 _
              exact absurd h1 hc2
            · rfl
      · have hs : lastIsSlash s = false := by
          unfold lastIsSlash
          rw [hrev]
          simp [hc]
        rw [normalize_url_of_not_slash s hs, normalize_url_of_not_slash s hs]
  · intro s h
    rw [normalize_url_concat_slash, normalize_url_of_not_slash s h]

/-- Witness for the amended C6 at a concrete URL with no trailing slash. -/
theorem normalize_url_strip_one_slash_witness :
    normalize_url (normalize_url "https://helm.sh/blog") =
      normalize_url "https://helm.sh/blog" :=
  normalize_url_strip_one_slash.2.2.1 "https://helm.sh/blog" (by decide)

/-! ## Theorems about delivery ordering -/

theorem cycleAux_fst (stored : List (String × String)) :
    ∀ (srcs : List (String × List Post)) (allNew : List Post)
      (upd : List (String × String)),
      (cycleAux stored srcs allNew upd).1 =
        allNew ++ (srcs.map (sourceNew stored)).flatten
  | [], allNew, upd => by simp [cycleAux]
  | (name, posts) :: rest, allNew, upd => by
    simp only [cycleAux]
    by_cases h : posts = []
    · rw [if_pos h, cycleAux_fst stored rest allNew upd]
      simp [sourceNew, h]
    · rw [if_neg h]
      rw [cycleAux_fst stored rest]
      simp [sourceNew, h, List.append_assoc]

/-- C5 counterexample: two sources, each contributing one new post, on a
first run.  `check_once.main` delivers `reversed(all_new_posts)`, i.e.
source B's post before source A's — not the per-source-reversed lists
concatenated in source-declaration order that the claim predicts. -/
theorem delivery_reverses_across_sources :
    deliveredPosts [("A", [scenarioPostA]), ("B", [scenarioPostB])] [] =
      [scenarioPostB, scenarioPostA] ∧
    (sourceNew [] ("A", [scenarioPostA])).reverse ++
      (sourceNew [] ("B", [scenarioPostB])).reverse =
      [scenarioPostA, scenarioPostB] ∧
    ([scenarioPostB, scenarioPostA] : List Post) ≠ [scenarioPostA, scenarioPostB] :=
  ⟨by decide, by decide, by decide⟩

/-- C5 as amended: a single source's new posts are delivered oldest-first
(the reverse of its newest-first fetch order); with several sources the
whole concatenation is reversed globally, which equals the per-source
reversed lists concatenated in *reverse* source-declaration order. -/
theorem delivery_order :
    (∀ (sources : List (String × List Post)) (stored : List (String × String)),
        deliveredPosts sources stored =
          ((sources.map (sourceNew stored)).map List.reverse).reverse.flatten) ∧
    (∀ (name : String) (posts : List Post) (stored : List (String × String)),
        deliveredPosts [(name, posts)] stored = (sourceNew stored (name, posts)).reverse) := by
  constructor
  · intro sources stored
    show (mainCycle sources stored).1.reverse = _
    rw [mainCycle, cycleAux_fst stored sources [] []]
    simp only [List.nil_append]
    exact List.reverse_flatten (sources.map (sourceNew stored))
  · intro name posts stored
    show (mainCycle [(name, posts)] stored).1.reverse = _
    rw [mainCycle, cycleAux_fst stored [(name, posts)] [] []]
    simp

/-! ## Lemmas about the date normalizer -/

theorem data_space_append (s : String) : (" " ++ s).data = ' ' :: s.data := by
  cases s with
  | mk d => rfl

theorem data_append_space (s : String) : (s ++ " ").data = s.data ++ [' '] := by
  cases s with
  | mk d => rfl

theorem pyStrip_space_cons (s : String) : pyStrip (" " ++ s) = pyStrip s := by
  unfold pyStrip
  rw [data_space_append]
  simp [List.dropWhile, pyIsSpace]

theorem dropWhile_head_false {p : Char → Bool} :
    ∀ {l : List Char} {c : Char} {cs : List Char},
      l.dropWhile p = c :: cs → p c = false
  | [], c, cs => by intro h; cases h
  | a :: l, c, cs => by
    intro h
    simp only [List.dropWhile] at h
    cases ha : p a with
    | true =>
      simp only [ha] at h
      exact dropWhile_head_false h
    | false =>
      simp only [ha] at h
      cases h
      exact ha

theorem pyStrip_space_concat (s : String) : pyStrip (s ++ " ") = pyStrip s := by
  unfold pyStrip
  rw [data_append_space]
  rw [List.dropWhile_append]
  cases h : s.data.dropWhile pyIsSpace with
  | nil => simp [List.dropWhile, pyIsSpace]
  | cons c cs =>
    have hc : pyIsSpace c = false := dropWhile_head_false h
    simp only [List.isEmpty_cons, if_false, Bool.false_eq_true]
    rw [List.reverse_append]
    simp [List.dropWhile, pyIsSpace]

theorem space_append_ne (s t : String) (c : Char) (hc : t.data.head? = some c)
    (hne : c ≠ ' ') : " " ++ s ≠ t := by
  intro h
  have hd := congrArg (fun u : String => u.data.head?) h
  simp only [data_space_append, List.head?_cons, hc] at hd
  exact hne (Option.some.inj hd).symm

theorem append_space_ne (s t : String) (c : Char) (hc : t.data.getLast? = some c)
    (hne : c ≠ ' ') : s ++ " " ≠ t := by
  intro h
  have hd := congrArg (fun u : String => u.data.getLast?) h
  simp only [data_append_space, List.getLast?_concat, hc] at hd
  exact hne (Option.some.inj hd).symm

theorem daysInMonth_le (y m : Nat) : daysInMonth y m ≤ 31 := by
  unfold daysInMonth
  split
  · split <;> omega
  · split <;> omega

theorem checkAndFormat_inv {y m d : Nat} {r : String}
    (h : checkAndFormat y m d = some r) :
    1 ≤ y ∧ 1 ≤ m ∧ m ≤ 12 ∧ 1 ≤ d ∧ d ≤ 31 ∧ r = isoFormat y m d := by
  unfold checkAndFormat at h
  split at h
  · rename_i hcond
    simp only [Bool.and_eq_true, decide_eq_true_eq] at hcond
    obtain ⟨⟨⟨⟨hy, hm1⟩, hm2⟩, hd1⟩, hd2⟩ := hcond
    exact ⟨hy, hm1, hm2, hd1, le_trans hd2 (daysInMonth_le y m),
      (Option.some.injEq _ _ ▸ h).symm⟩
  · cases h

theorem fmtMonthDayYear_inv {names : List (List Char × Nat)} {cs : List Char}
    {r : String} (h : fmtMonthDayYear names cs = some r) :
    ∃ y m d, checkAndFormat y m d = some r := by
  simp only [fmtMonthDayYear, Option.pure_def, Option.bind_eq_bind,
    Option.bind_eq_some] at h
  obtain ⟨⟨m, cs1⟩, _, h⟩ := h
  obtain ⟨cs2, _, h⟩ := h
  obtain ⟨⟨d, cs3⟩, _, h⟩ := h
  obtain ⟨cs4, _, h⟩ := h
  obtain ⟨cs5, _, h⟩ := h
  obtain ⟨⟨y, cs6⟩, _, h⟩ := h
  split at h
  · exact ⟨y, m, d, h⟩
  · cases h

theorem fmtIso_inv {cs : List Char} {r : String} (h : fmtIso cs = some r) :
    ∃ y m d, checkAndFormat y m d = some r := by
  simp only [fmtIso, Option.pure_def, Option.bind_eq_bind, Option.bind_eq_some] at h
  obtain ⟨⟨y, cs1⟩, _, h⟩ := h
  obtain ⟨cs2, _, h⟩ := h
  obtain ⟨⟨m, cs3⟩, _, h⟩ := h
  obtain ⟨cs4, _, h⟩ := h
  obtain ⟨⟨d, cs5⟩, _, h⟩ := h
  split at h
  · exact ⟨y, m, d, h⟩
  · cases h

theorem fmtDayMonthYear_inv {names : List (List Char × Nat)} {cs : List Char}
    {r : String} (h : fmtDayMonthYear names cs = some r) :
    ∃ y m d, checkAndFormat y m d = some r := by
  simp only [fmtDayMonthYear, Option.pure_def, Option.bind_eq_bind,
    Option.bind_eq_some] at h
  obtain ⟨⟨d, cs1⟩, _, h⟩ := h
  obtain ⟨cs2, _, h⟩ := h
  obtain ⟨⟨m, cs3⟩, _, h⟩ := h
  obtain ⟨cs4, _, h⟩ := h
  obtain ⟨⟨y, cs5⟩, _, h⟩ := h
  split at h
  · exact ⟨y, m, d, h⟩
  · cases h

theorem space_append_ne_empty (s : String) : " " ++ s ≠ "" := by
  intro h
  have hd := congrArg String.data h
  rw [data_space_append, show ("" : String).data = [] from rfl] at hd
  cases hd

theorem append_space_ne_empty (s : String) : s ++ " " ≠ "" := by
  intro h
  have hd := congrArg String.data h
  rw [data_append_space, show ("" : String).data = [] from rfl] at hd
  exact List.cons_ne_nil ' ' [] (List.append_eq_nil.mp hd).2

/-- C7: the Date Normalizer: the sentinel inputs `"Unknown date"`,
`"Recent"` and `""` map to `none`; `"November 17, 2025"` parses to
`2025-11-17` and `"garbage"` to `none`; leading/trailing whitespace is
immaterial; and every successful parse is rendered as ISO `YYYY-MM-DD`
from a calendar-valid year, month and day. -/
theorem parse_blog_date_contract :
    (parse_blog_date "Unknown date" = none ∧ parse_blog_date "Recent" = none ∧
      parse_blog_date "" = none) ∧
    parse_blog_date "November 17, 2025" = some "2025-11-17" ∧
    parse_blog_date "garbage" = none ∧
    (∀ s : String, parse_blog_date (" " ++ s) = parse_blog_date s ∧
      parse_blog_date (s ++ " ") = parse_blog_date s) ∧
    (∀ (s r : String), parse_blog_date s = some r →
      ∃ y m d, 1 ≤ y ∧ 1 ≤ m ∧ m ≤ 12 ∧ 1 ≤ d ∧ d ≤ 31 ∧ r = isoFormat y m d) := by
  refine ⟨⟨by decide, by decide, by decide⟩, by decide, by decide, ?_, ?_⟩
  · intro s
    have h1 : " " ++ s ≠ "" := space_append_ne_empty s
    have h2 : " " ++ s ≠ "Unknown date" :=
      space_append_ne s "Unknown date" 'U' (by decide) (by decide)
    have h3 : " " ++ s ≠ "Recent" :=
      space_append_ne s "Recent" 'R' (by decide) (by decide)
    have g1 : s ++ " " ≠ "" := append_space_ne_empty s
    have g2 : s ++ " " ≠ "Unknown date" :=
      append_space_ne s "Unknown date" 'e' (by decide) (by decide)
    have g3 : s ++ " " ≠ "Recent" :=
      append_space_ne s "Recent" 't' (by decide) (by decide)
    by_cases hs1 : s = ""
    · subst hs1; exact ⟨by decide, by decide⟩
    by_cases hs2 : s = "Unknown date"
    · subst hs2; exact ⟨by decide, by decide⟩
    by_cases hs3 : s = "Recent"
    · subst hs3; exact ⟨by decide, by decide⟩
    constructor
    · simp only [parse_blog_date, h1, h2, h3, hs1, hs2, hs3, decide_False,
        Bool.or_self, Bool.or_false, Bool.false_eq_true, if_false]
      rw [pyStrip_space_cons]
    · simp only [parse_blog_date, g1, g2, g3, hs1, hs2, hs3, decide_False,
        Bool.or_self, Bool.or_false, Bool.false_eq_true, if_false]
      rw [pyStrip_space_concat]
  · intro s r h
    unfold parse_blog_date at h
    split at h
    · cases h
    · obtain ⟨fmt, hmem, hfmt⟩ := List.exists_of_findSome?_eq_some h
      have hex : ∃ y m d, checkAndFormat y m d = some r := by
        simp only [blogDateFormats, List.mem_cons, List.not_mem_nil, or_false] at hmem
        rcases hmem with rfl | rfl | rfl | rfl | rfl
        · exact fmtMonthDayYear_inv hfmt
        · exact fmtMonthDayYear_inv hfmt
        · exact fmtIso_inv hfmt
        · exact fmtDayMonthYear_inv hfmt
        · exact fmtDayMonthYear_inv hfmt
      obtain ⟨y, m, d, hc⟩ := hex
      obtain ⟨hy, hm1, hm2, hd1, hd2, hr⟩ := checkAndFormat_inv hc
      exact ⟨y, m, d, hy, hm1, hm2, hd1, hd2, hr⟩

/-- Witness for C7: instantiating the ISO-shape clause at the successful
parse of `"November 17, 2025"`. -/
theorem parse_blog_date_contract_witness :
    ∃ y m d, 1 ≤ y ∧ 1 ≤ m ∧ m ≤ 12 ∧ 1 ≤ d ∧ d ≤ 31 ∧
      "2025-11-17" = isoFormat y m d :=
  parse_blog_date_contract.2.2.2.2 "November 17, 2025" "2025-11-17" (by decide)

/-! ## Round trip of the state message

`json.dumps`/`json.loads` invert each other on the states this program
stores.  The proofs below establish this for states whose keys and values
are plain printable ASCII without `"` or `\` — the shape of source names
and ISO dates — which is also the fragment where `dumps` escapes
nothing. -/

/-- Printable ASCII that `json.dumps` emits verbatim. -/
def plainCharB (c : Char) : Bool :=
  0x20 ≤ c.toNat && c.toNat ≤ 0x7e && c ≠ '"' && c ≠ '\\'

def plainStrB (s : String) : Bool := s.data.all plainCharB

def plainStateB (d : List (String × String)) : Bool :=
  d.all fun kv => plainStrB kv.1 && plainStrB kv.2

theorem escChar_plain {c : Char} (hp : plainCharB c = true) : escChar c = [c] := by
  simp only [plainCharB, Bool.and_eq_true, decide_eq_true_eq] at hp
  obtain ⟨⟨⟨h1, h2⟩, h3⟩, h4⟩ := hp
  have hb : c ≠ '\x08' := fun he => absurd (he ▸ h1) (by decide)
  have hf : c ≠ '\x0c' := fun he => absurd (he ▸ h1) (by decide)
  have hn : c ≠ '\n' := fun he => absurd (he ▸ h1) (by decide)
  have hr : c ≠ '\r' := fun he => absurd (he ▸ h1) (by decide)
  have ht : c ≠ '\t' := fun he => absurd (he ▸ h1) (by decide)
  have hlt : ¬ c.toNat < 0x20 := by omega
  rw [escChar, if_neg h3, if_neg h4, if_neg hb, if_neg hf, if_neg hn, if_neg hr,
    if_neg ht, if_neg hlt, if_pos h2]

theorem flatten_map_singleton : ∀ l : List Char,
    (∀ c ∈ l, plainCharB c = true) → (l.map escChar).flatten = l
  | [] => fun _ => rfl
  | c :: l => by
    intro h
    simp only [List.map, List.flatten_cons]
    rw [escChar_plain (h c (List.mem_cons_self c l)),
      flatten_map_singleton l fun x hx => h x (List.mem_cons_of_mem c hx)]
    rfl

theorem encStr_plain {s : String} (hp : plainStrB s = true) :
    encStr s = '"' :: s.data ++ ['"'] := by
  unfold encStr
  rw [flatten_map_singleton s.data (by simpa [plainStrB, List.all_eq_true] using hp)]

theorem pjsAux_roundtrip : ∀ (l : List Char) (fuel : Nat) (tail : List Char),
    (∀ c ∈ l, plainCharB c = true) → l.length < fuel →
      pjsAux fuel (l ++ '"' :: tail) = some (l, tail)
  | [], fuel, tail => by
    intro _ hf
    cases fuel with
    | zero => omega
    | succ f => simp [pjsAux]
  | c :: l, fuel, tail => by
    intro h hf
    cases fuel with
    | zero => omega
    | succ f =>
      have hpc := h c (List.mem_cons_self c l)
      simp only [plainCharB, Bool.and_eq_true, decide_eq_true_eq] at hpc
      obtain ⟨⟨⟨h1, h2⟩, h3⟩, h4⟩ := hpc
      have hlt : ¬ c.toNat < 0x20 := by omega
      simp only [List.cons_append, pjsAux, if_neg h3, if_neg h4, if_neg hlt]
      rw [show l.append ('"' :: tail) = l ++ '"' :: tail from rfl,
        pjsAux_roundtrip l f tail (fun x hx => h x (List.mem_cons_of_mem c hx))
        (by simpa using hf)]
      rfl

theorem string_mk_data (s : String) : String.mk s.data = s := by
  cases s
  rfl

theorem parseJString_enc {s : String} (hp : plainStrB s = true) (tail : List Char) :
    parseJString (encStr s ++ tail) = some (s, tail) := by
  rw [encStr_plain hp]
  show parseJString ('"' :: (s.data ++ ['"']) ++ tail) = some (s, tail)
  rw [List.cons_append, List.append_assoc]
  show Option.map (fun pr => (String.mk pr.1, pr.2))
      (pjsAux ((s.data ++ '"' :: tail).length + 1) (s.data ++ '"' :: tail)) =
    some (s, tail)
  rw [pjsAux_roundtrip s.data ((s.data ++ '"' :: tail).length + 1) tail
    (by simpa [plainStrB, List.all_eq_true] using hp) (by simp; omega)]
  simp [string_mk_data]

theorem skipWs_cons_not {c : Char} (h : isJsonWs c = false) (x : List Char) :
    skipWs (c :: x) = c :: x := by
  simp [skipWs, List.dropWhile, h]

theorem skipWs_quote_head (x : List Char) : skipWs ('"' :: x) = '"' :: x :=
  skipWs_cons_not (by decide) x

theorem skipWs_space (x : List Char) : skipWs (' ' :: x) = skipWs x := by
  simp [skipWs, List.dropWhile, isJsonWs]

theorem skipWs_encStr_append (v : String) (x : List Char) :
    skipWs (encStr v ++ x) = encStr v ++ x := by
  simp only [encStr, List.cons_append]
  exact skipWs_quote_head _

theorem innerChars_cons_quote (kv : String × String) (rest : List (String × String)) :
    ∃ t, innerChars (kv :: rest) = '"' :: t := by
  cases rest with
  | nil => exact ⟨_, rfl⟩
  | cons kv2 rest2 => exact ⟨_, rfl⟩

theorem skipWs_inner_append {d : List (String × String)} (hne : d ≠ [])
    (x : List Char) : skipWs (innerChars d ++ x) = innerChars d ++ x := by
  cases d with
  | nil => exact absurd rfl hne
  | cons kv rest =>
    obtain ⟨t, ht⟩ := innerChars_cons_quote kv rest
    rw [ht, List.cons_append]
    exact skipWs_quote_head _

theorem skipWs_colon_cons (x : List Char) : skipWs (':' :: x) = ':' :: x := rfl

theorem skipWs_comma_cons (x : List Char) : skipWs (',' :: x) = ',' :: x := rfl

theorem skipWs_rbrace_cons (x : List Char) : skipWs (rbrace :: x) = rbrace :: x := rfl

theorem skipWs_space_encStr (v : String) (x : List Char) :
    skipWs (' ' :: (encStr v ++ x)) = encStr v ++ x := rfl

theorem pMembers_roundtrip : ∀ (d : List (String × String)) (fuel : Nat)
    (tail : List Char), d ≠ [] → plainStateB d = true → d.length < fuel →
      pMembers fuel (innerChars d ++ rbrace :: tail) = some (d, tail)
  | [], _, _ => by intro hne _ _; exact absurd rfl hne
  | [(k, v)], fuel, tail => by
    intro _ hp _
    have hkv : plainStrB k = true ∧ plainStrB v = true := by
      simpa [plainStateB, Bool.and_eq_true] using hp
    cases fuel with
    | zero => omega
    | succ f =>
      simp only [innerChars, pairChars, List.cons_append, List.append_assoc]
      simp only [pMembers, parseJString_enc hkv.1, Option.some_bind]
      rw [skipWs_colon_cons]
      simp only [reduceIte]
      rw [skipWs_space_encStr, parseJString_enc hkv.2]
      simp only [Option.some_bind]
      rw [skipWs_rbrace_cons]
      simp only [reduceIte]
      rfl
  | (k, v) :: kv2 :: rest, fuel, tail => by
    intro _ hp hf
    have hkv : plainStrB k = true ∧ plainStrB v = true := by
      have h2 := hp
      simp only [plainStateB, List.all_cons, Bool.and_eq_true] at h2
      exact h2.1
    have hp2 : plainStateB (kv2 :: rest) = true := by
      simp only [plainStateB, List.all_cons, Bool.and_eq_true] at hp ⊢
      exact hp.2
    cases fuel with
    | zero => omega
    | succ f =>
      simp only [innerChars, pairChars, List.cons_append, List.append_assoc]
      simp only [pMembers, parseJString_enc hkv.1, Option.some_bind]
      rw [skipWs_colon_cons]
      simp only [reduceIte]
      rw [skipWs_space_encStr, parseJString_enc hkv.2]
      simp only [Option.some_bind]
      rw [skipWs_comma_cons]
      simp only [reduceIte]
      rw [skipWs_space, skipWs_inner_append (List.cons_ne_nil kv2 rest),
        pMembers_roundtrip (kv2 :: rest) f tail (List.cons_ne_nil kv2 rest) hp2
          (by simp only [List.length_cons] at hf ⊢; omega)]
      rfl

theorem dictSet_notmem {acc : List (String × String)} {k : String} (v : String)
    (h : k ∉ acc.map Prod.fst) : dictSet acc k v = acc ++ [(k, v)] := by
  have hany : ¬ (acc.any fun kv => kv.1 = k) = true := by
    simp only [List.any_eq_true, decide_eq_true_eq, not_exists]
    intro kv
    intro hand
    obtain ⟨hkv, hek⟩ := hand
    exact h (hek ▸ List.mem_map_of_mem Prod.fst hkv)
  unfold dictSet
  rw [if_neg hany]

theorem foldl_dictSet : ∀ (d acc : List (String × String)),
    (acc.map Prod.fst ++ d.map Prod.fst).Nodup →
      d.foldl (fun a kv => dictSet a kv.1 kv.2) acc = acc ++ d
  | [], acc => by simp
  | (k, v) :: d, acc => by
    intro hnd
    simp only [List.map_cons] at hnd
    have hsplit := List.nodup_append.mp hnd
    have hk : k ∉ acc.map Prod.fst := fun hmem =>
      hsplit.2.2 hmem (List.mem_cons_self k (d.map Prod.fst))
    simp only [List.foldl]
    rw [dictSet_notmem v hk, foldl_dictSet d (acc ++ [(k, v)])
      (by simpa [List.append_assoc] using hnd)]
    simp

theorem buildDict_nodup {d : List (String × String)}
    (hnd : (d.map Prod.fst).Nodup) : buildDict d = d := by
  unfold buildDict
  rw [foldl_dictSet d [] (by simpa using hnd)]
  simp

theorem innerChars_length : ∀ d : List (String × String),
    d.length ≤ (innerChars d).length
  | [] => by simp [innerChars]
  | [kv] => by
    simp only [innerChars, pairChars, encStr, List.length_cons, List.length_append,
      List.length_nil]
    omega
  | kv :: kv2 :: rest => by
    have ih := innerChars_length (kv2 :: rest)
    simp only [innerChars, pairChars, encStr, List.length_cons, List.length_append,
      List.length_nil] at ih ⊢
    omega

theorem skipWs_lbrace_cons (x : List Char) : skipWs (lbrace :: x) = lbrace :: x := rfl

theorem parseStateObj_dumps {d : List (String × String)}
    (hp : plainStateB d = true) (hnd : (d.map Prod.fst).Nodup) :
    parseStateObj (dumps d) = some d := by
  cases d with
  | nil => decide
  | cons kv rest =>
    obtain ⟨t, ht⟩ := innerChars_cons_quote kv rest
    have hlen := innerChars_length (kv :: rest)
    simp only [parseStateObj, dumps, List.cons_append, skipWs_lbrace_cons, reduceIte]
    simp only [skipWs_inner_append (List.cons_ne_nil kv rest)]
    rw [ht]
    simp only [List.cons_append, reduceIte]
    rw [show ('"' : Char) :: (t ++ [rbrace]) = innerChars (kv :: rest) ++ rbrace :: []
      from by rw [ht, List.cons_append]]
    rw [pMembers_roundtrip (kv :: rest) _ [] (List.cons_ne_nil kv rest) hp
      (by simp only [List.length_cons, List.length_append, List.length_nil] at hlen ⊢
          omega)]
    simp only [Option.some_bind]
    rw [show skipWs ([] : List Char) = [] from rfl]
    simp only [reduceIte]
    rw [buildDict_nodup hnd]
    rw [if_neg (show ('"' : Char) ≠ rbrace from by decide)]

theorem plainCharB_bounds {c : Char} (h : plainCharB c = true) :
    0x20 ≤ c.toNat ∧ c.toNat ≤ 0x7e := by
  simp only [plainCharB, Bool.and_eq_true, decide_eq_true_eq] at h
  exact ⟨h.1.1.1, h.1.1.2⟩

theorem pairChars_range {k v : String} (hk : plainStrB k = true)
    (hv : plainStrB v = true) :
    ∀ c ∈ pairChars k v, 0x20 ≤ c.toNat ∧ c.toNat ≤ 0x7e := by
  intro c hc
  rw [pairChars, encStr_plain hk, encStr_plain hv] at hc
  simp only [List.cons_append, List.mem_append, List.mem_cons,
    List.mem_singleton, List.not_mem_nil, or_false] at hc
  have hkd : ∀ x ∈ k.data, plainCharB x = true := by
    simpa [plainStrB, List.all_eq_true] using hk
  have hvd : ∀ x ∈ v.data, plainCharB x = true := by
    simpa [plainStrB, List.all_eq_true] using hv
  have hx : c = '"' ∨ c = ':' ∨ c = ' ' ∨ c ∈ k.data ∨ c ∈ v.data := by tauto
  rcases hx with rfl | rfl | rfl | hm | hm
  · exact ⟨by decide, by decide⟩
  · exact ⟨by decide, by decide⟩
  · exact ⟨by decide, by decide⟩
  · exact plainCharB_bounds (hkd c hm)
  · exact plainCharB_bounds (hvd c hm)

theorem innerChars_range : ∀ d : List (String × String), plainStateB d = true →
    ∀ c ∈ innerChars d, 0x20 ≤ c.toNat ∧ c.toNat ≤ 0x7e
  | [] => by intro _ c hc; cases hc
  | [(k, v)] => by
    intro hp c hc
    have hkv : plainStrB k = true ∧ plainStrB v = true := by
      simpa [plainStateB, Bool.and_eq_true] using hp
    exact pairChars_range hkv.1 hkv.2 c hc
  | (k, v) :: kv2 :: rest => by
    intro hp c hc
    have hkv : plainStrB k = true ∧ plainStrB v = true := by
      have h2 := hp
      simp only [plainStateB, List.all_cons, Bool.and_eq_true] at h2
      exact h2.1
    have hp2 : plainStateB (kv2 :: rest) = true := by
      simp only [plainStateB, List.all_cons, Bool.and_eq_true] at hp ⊢
      exact hp.2
    simp only [innerChars, List.mem_append, List.mem_cons] at hc
    rcases hc with hpm | rfl | rfl | hrest
    · exact pairChars_range hkv.1 hkv.2 c hpm
    · exact ⟨by decide, by decide⟩
    · exact ⟨by decide, by decide⟩
    · exact innerChars_range (kv2 :: rest) hp2 c hrest

theorem takeWhile_all_true {p : Char → Bool} : ∀ {l : List Char},
    (∀ c ∈ l, p c = true) → l.takeWhile p = l
  | [] => fun _ => rfl
  | c :: l => by
    intro h
    simp only [List.takeWhile, h c (List.mem_cons_self c l)]
    exact congrArg (c :: ·) (takeWhile_all_true fun x hx => h x (List.mem_cons_of_mem c hx))

theorem dropWhile_append_of_all {p : Char → Bool} : ∀ (l1 l2 : List Char),
    (∀ c ∈ l1, p c = true) → (l1 ++ l2).dropWhile p = l2.dropWhile p
  | [], l2 => fun _ => rfl
  | c :: l1, l2 => by
    intro h
    simp only [List.cons_append, List.dropWhile, h c (List.mem_cons_self c l1)]
    exact dropWhile_append_of_all l1 l2 fun x hx => h x (List.mem_cons_of_mem c hx)

theorem isPrefixOf_state_cons (c : Char) (cs : List Char) (hne : c ≠ 'S') :
    "STATE:".data.isPrefixOf (c :: cs) = false := by
  have h2 : ('S' == c) = false := beq_eq_false_iff_ne.mpr fun h => hne h.symm
  rw [show "STATE:".data = 'S' :: 'T' :: 'A' :: 'T' :: 'E' :: ':' :: [] from rfl]
  simp [List.isPrefixOf, h2]

theorem searchState_cons_not (c : Char) (cs : List Char) (hne : c ≠ 'S') :
    searchState (c :: cs) = searchState cs := by
  simp only [searchState, tryMatchAt, isPrefixOf_state_cons c cs hne,
    Bool.false_eq_true, if_false]

theorem hasSub_cons_not (c : Char) (cs : List Char) (hne : c ≠ 'S') :
    hasSub "STATE:".data (c :: cs) = hasSub "STATE:".data cs := by
  simp only [hasSub, isPrefixOf_state_cons c cs hne, Bool.false_or]

theorem footer_drop_brace : ∀ x : List Char,
    List.dropWhile (fun c => c ≠ rbrace)
      ('>' :: 'e' :: 'd' :: 'o' :: 'c' :: '/' :: '<' :: rbrace :: x) = rbrace :: x :=
  fun _ => rfl

theorem dumps_cons_form (d : List (String × String)) :
    dumps d ++ "</code>".data =
      lbrace :: (innerChars d ++ rbrace :: "</code>".data) := by
  simp [dumps, List.cons_append, List.append_assoc]

theorem tryMatchAt_state {d : List (String × String)} (hp : plainStateB d = true) :
    tryMatchAt ('S' :: 'T' :: 'A' :: 'T' :: 'E' :: ':' :: (dumps d ++ "</code>".data)) =
      some (dumps d) := by
  have hpre : "STATE:".data.isPrefixOf
      ('S' :: 'T' :: 'A' :: 'T' :: 'E' :: ':' :: (dumps d ++ "</code>".data)) = true := rfl
  simp only [tryMatchAt, hpre, if_true]
  rw [show List.drop 6 ('S' :: 'T' :: 'A' :: 'T' :: 'E' :: ':' :: (dumps d ++ "</code>".data))
    = dumps d ++ "</code>".data from rfl]
  rw [dumps_cons_form]
  simp only [reduceIte]
  have htake : (innerChars d ++ rbrace :: "</code>".data).takeWhile (fun x => x ≠ '\n') =
      innerChars d ++ rbrace :: "</code>".data := by
    apply takeWhile_all_true
    intro c hc
    rcases List.mem_append.mp hc with hin | hco
    · obtain ⟨hlo, _⟩ := innerChars_range d hp c hin
      exact decide_eq_true fun he => by subst he; exact absurd hlo (by decide)
    · rcases List.mem_cons.mp hco with rfl | hf
      · exact decide_eq_true (by decide)
      · have : ∀ x ∈ "</code>".data, decide (x ≠ '\n') = true := by decide
        exact this c hf
  rw [htake]
  rw [List.reverse_append, List.reverse_cons, List.append_assoc,
    List.singleton_append]
  rw [show "</code>".data.reverse = '>' :: 'e' :: 'd' :: 'o' :: 'c' :: '/' :: '<' :: []
    from rfl]
  rw [show ('>' :: 'e' :: 'd' :: 'o' :: 'c' :: '/' :: '<' :: []) ++
      rbrace :: (innerChars d).reverse =
      '>' :: 'e' :: 'd' :: 'o' :: 'c' :: '/' :: '<' :: rbrace :: (innerChars d).reverse
    from rfl]
  rw [footer_drop_brace]
  rw [if_neg (List.cons_ne_nil rbrace (innerChars d).reverse)]
  rw [List.reverse_cons, List.reverse_reverse]
  rw [show dumps d = lbrace :: (innerChars d ++ [rbrace]) from by
    simp [dumps, List.cons_append]]

theorem searchState_stateMessage {d : List (String × String)}
    (hp : plainStateB d = true) :
    searchState (stateMessageChars d) = some (dumps d) := by
  unfold stateMessageChars
  rw [show "🤖 <code>STATE:".data = '🤖' :: ' ' :: '<' :: 'c' :: 'o' :: 'd' :: 'e' ::
    '>' :: 'S' :: 'T' :: 'A' :: 'T' :: 'E' :: ':' :: [] from rfl]
  simp only [List.cons_append, List.nil_append]
  rw [searchState_cons_not '🤖' _ (by decide), searchState_cons_not ' ' _ (by decide),
    searchState_cons_not '<' _ (by decide), searchState_cons_not 'c' _ (by decide),
    searchState_cons_not 'o' _ (by decide), searchState_cons_not 'd' _ (by decide),
    searchState_cons_not 'e' _ (by decide), searchState_cons_not '>' _ (by decide)]
  simp only [searchState, tryMatchAt_state hp]

theorem hasSub_stateMessage (d : List (String × String)) :
    hasSub "STATE:".data (stateMessageChars d) = true := by
  unfold stateMessageChars
  rw [show "🤖 <code>STATE:".data = '🤖' :: ' ' :: '<' :: 'c' :: 'o' :: 'd' :: 'e' ::
    '>' :: 'S' :: 'T' :: 'A' :: 'T' :: 'E' :: ':' :: [] from rfl]
  simp only [List.cons_append, List.nil_append]
  rw [hasSub_cons_not '🤖' _ (by decide), hasSub_cons_not ' ' _ (by decide),
    hasSub_cons_not '<' _ (by decide), hasSub_cons_not 'c' _ (by decide),
    hasSub_cons_not 'o' _ (by decide), hasSub_cons_not 'd' _ (by decide),
    hasSub_cons_not 'e' _ (by decide), hasSub_cons_not '>' _ (by decide)]
  have hpre : "STATE:".data.isPrefixOf
      ('S' :: 'T' :: 'A' :: 'T' :: 'E' :: ':' :: (dumps d ++ "</code>".data)) = true := rfl
  simp [hasSub, hpre]

/-- Encoding a state into a message and extracting it back recovers the
state, for plain-ASCII keys and values with distinct keys. -/
theorem extractState_stateMessage {d : List (String × String)}
    (hp : plainStateB d = true) (hnd : (d.map Prod.fst).Nodup) :
    extractState (stateMessageChars d) = some d := by
  unfold extractState
  rw [hasSub_stateMessage d]
  simp only [if_true]
  rw [searchState_stateMessage hp]
  simp only [Option.some_bind]
  exact parseStateObj_dumps hp hnd

/-- C10: the state-extraction step of `get_last_state_from_messages`
(regex capture of `STATE:{...}` followed by JSON decoding) applied to the
message text built by `send_state_message` recovers exactly the encoded
map, for every non-empty map whose source names and date strings are
plain printable ASCII (no `"` or `\`) with distinct keys. -/
theorem state_message_roundtrip :
    ∀ d : List (String × String), d ≠ [] → plainStateB d = true →
      (d.map Prod.fst).Nodup → extractState (stateMessageChars d) = some d :=
  fun _ _ hp hnd => extractState_stateMessage hp hnd

/-- Witness for C10 at the one-source state the deployed configuration
produces. -/
theorem state_message_roundtrip_witness :
    extractState (stateMessageChars [("Helm", "2025-11-20")]) =
      some [("Helm", "2025-11-20")] :=
  state_message_roundtrip [("Helm", "2025-11-20")] (by decide) (by decide) (by decide)

/-- A persisted history holding dates for two sources. -/
def persistedHistory : List (List Char) :=
  [stateMessageChars [("Helm", "2025-01-01"), ("Argo", "2025-02-02")]]

/-- C8 counterexample: the persisted state holds dates for sources `Helm`
and `Argo`; a cycle whose update map touches only `Helm` sends a fresh
state message containing only `Helm`, and the next load no longer sees
`Argo`'s date — the save does not retain keys absent from the update. -/
theorem save_drops_absent_source :
    dictGet (getLastState persistedHistory) "Argo" = some "2025-02-02" ∧
    dictGet (getLastState (saveState persistedHistory [("Helm", "2025-03-03")]))
      "Argo" = none :=
  ⟨by decide, by decide⟩

/-- C8 as amended: `check_once`'s save sends a state message holding only
the update map, so a subsequent load returns exactly the update map —
sources absent from it lose their previously persisted value; only when
the update map is empty is no message sent and the previous state kept. -/
theorem save_replaces_state :
    ∀ (history : List (List Char)) (upd : List (String × String)),
      saveState history [] = history ∧
      (upd ≠ [] → plainStateB upd = true → (upd.map Prod.fst).Nodup →
        getLastState (saveState history upd) = upd) := by
  intro history upd
  constructor
  · simp [saveState]
  · intro hne hp hnd
    unfold saveState
    rw [if_neg hne]
    unfold getLastState
    rw [List.reverse_append,
      show ([stateMessageChars upd] : List (List Char)).reverse ++ history.reverse =
        stateMessageChars upd :: history.reverse from rfl]
    simp only [List.findSome?, extractState_stateMessage hp hnd, Option.getD_some]

/-- Witness for the amended C8: saving a one-source update over an empty
history and loading returns that update. -/
theorem save_replaces_state_witness :
    getLastState (saveState [] [("Helm", "2025-11-20")]) = [("Helm", "2025-11-20")] :=
  (save_replaces_state [] [("Helm", "2025-11-20")]).2 (by decide) (by decide) (by decide)

/-- C9 counterexample: `bot.load_state` catches only `FileNotFoundError`;
on a present file with undecodable content, `json.load` raises and the
error propagates out of `load_state`, failing the cycle, instead of the
empty first-run state being returned. -/
theorem load_state_error_on_corrupt :
    loadStateBot (some "garbage".data) = Except.error () ∧
    (Except.error () : Except Unit (List (String × JVal))) ≠
      Except.ok [("seen_posts", JVal.jarr [])] := by
  refine ⟨rfl, fun h => ?_⟩
  cases h

/-- C9 as amended: the file-backed `load_state` returns the empty
first-run state on a missing file but propagates a decode error on
undecodable content; the message-history load of `check_once` is total —
it returns the empty state when no message yields a state, and otherwise
returns a state extracted from some message in the history. -/
theorem load_state_error_policy :
    loadStateBot none = Except.ok [("seen_posts", JVal.jarr [])] ∧
    (∀ c : List Char, parseBotState c = none → loadStateBot (some c) = Except.error ()) ∧
    (∀ msgs : List (List Char), (∀ m ∈ msgs, extractState m = none) →
      getLastState msgs = []) ∧
    (∀ msgs : List (List Char), getLastState msgs = [] ∨
      ∃ m, m ∈ msgs ∧ extractState m = some (getLastState msgs)) := by
  refine ⟨rfl, fun c hc => ?_, fun msgs h => ?_, fun msgs => ?_⟩
  · simp only [loadStateBot]
    rw [hc]
  · unfold getLastState
    rw [List.findSome?_eq_none_iff.mpr fun m hm => h m (List.mem_reverse.mp hm)]
    rfl
  · unfold getLastState
    cases hfs : msgs.reverse.findSome? extractState with
    | none => exact Or.inl rfl
    | some v =>
      refine Or.inr ?_
      obtain ⟨m, hm, hext⟩ := List.exists_of_findSome?_eq_some hfs
      refine ⟨m, List.mem_reverse.mp hm, ?_⟩
      rw [Option.getD_some]
      exact hext

/-- Witness for the amended C9 at a concrete undecodable file content. -/
theorem load_state_error_policy_witness :
    loadStateBot (some "this is not json".data) = Except.error () :=
  load_state_error_policy.2.1 "this is not json".data (by decide)

end HelmSh
